import Mathlib

set_option maxHeartbeats 1000000

/-!
A verification development for `.github/tools/tpu_nightly.py`.

Documents (file contents, lines, dates) are modelled as `List Char`.
The script's two regular expressions are fixed, very small patterns, so they
are embedded directly as decidable scanning functions:

* `DATE_PAT = re.compile(r'\.dev([0-9]{8})')` becomes `devHead` (match at a
  position) together with `searchDate` (`DATE_PAT.search`) and `subnDate`
  (`DATE_PAT.subn` with replacement `'.dev' + nightly`);
* `SCOPE_LINE = re.compile(r'^\s*(?:torch(?:vision)?==|torch_xla)\b')`
  becomes `scopeLine` (`SCOPE_LINE.search`; the `^` anchor means only
  position 0 can match);
* `DATE_ONLY = re.compile(r'^[0-9]{8}$')` with `fullmatch` becomes `isDate8`.

Python's `str.splitlines` splits at every line-boundary character
(`\n`, `\r`, `\r\n`, `\v`, `\f`, `\x1c`, `\x1d`, `\x1e`, `\x85`,
` `, ` `) and is modelled by `splitlines`.  The regex classes
`\s` and `\w` are modelled by `pySpace` and `wordChar`; for `\w` the ASCII
fragment (letters, digits, underscore) is used, which is exact on the ASCII
inputs considered throughout.

`main` is modelled by `runMain`, a pure function from an abstract
command-line/filesystem input to the observable outcome (exit code, the
write to the requirements file, the env file, the JSON result record).
-/

/-- Python `str.splitlines` line-boundary characters. -/
def lineBreakChars : List Char :=
  ['\n', '\r', '\x0b', '\x0c', '\x1c', '\x1d', '\x1e', '\x85', '\u2028', '\u2029']

def isLineBreak (c : Char) : Bool := lineBreakChars.contains c

/-- Characters matched by the Python regex class `\s` on `str` patterns. -/
def pySpaceChars : List Char :=
  [' ', '\t', '\n', '\r', '\x0b', '\x0c', '\x1c', '\x1d', '\x1e', '\x1f',
   '\x85', '\xa0', '\u1680', '\u2000', '\u2001', '\u2002', '\u2003', '\u2004',
   '\u2005', '\u2006', '\u2007', '\u2008', '\u2009', '\u200a', '\u2028',
   '\u2029', '\u202f', '\u205f', '\u3000']

def pySpace (c : Char) : Bool := pySpaceChars.contains c

/-- The Python regex class `\w` (ASCII fragment: letters, digits, `_`). -/
def wordChar (c : Char) : Bool := c.isAlphanum || c == '_'

/-- `DATE_ONLY.fullmatch`: the string is exactly eight ASCII digits. -/
def isDate8 (s : List Char) : Bool := s.length == 8 && s.all Char.isDigit

/-- The literal `.dev` of `DATE_PAT`. -/
def devTok : List Char := ['.', 'd', 'e', 'v']

/-- Match of `DATE_PAT = \.dev([0-9]{8})` at the start of `s`: on success,
returns the eight captured digit characters and the remainder of `s`. -/
def devHead (s : List Char) : Option (List Char × List Char) :=
  if s.take 4 = devTok ∧ 12 ≤ s.length ∧ ((s.drop 4).take 8).all Char.isDigit = true then
    some ((s.drop 4).take 8, s.drop 12)
  else none

/-- One left-to-right scan of `DATE_PAT.subn('.dev' + nightly, line)`.
The `Nat` argument is the number of input characters still to discard
because they belong to a match that has already been replaced (a match
consumes 12 characters: the head is examined, then 11 more are skipped). -/
def subnSkip (nightly : List Char) : Nat → List Char → List Char × Nat
  | _, [] => ([], 0)
  | Nat.succ k, _ :: rest => subnSkip nightly k rest
  | 0, c :: rest =>
    match devHead (c :: rest) with
    | some _ =>
      ((devTok ++ nightly) ++ (subnSkip nightly 11 rest).1, (subnSkip nightly 11 rest).2 + 1)
    | none => (c :: (subnSkip nightly 0 rest).1, (subnSkip nightly 0 rest).2)

/-- `DATE_PAT.subn('.dev' + nightly, line)`: the rewritten line and the
number of replacements. -/
def subnDate (nightly : List Char) (line : List Char) : List Char × Nat :=
  subnSkip nightly 0 line

/-- `DATE_PAT.search(line)`: the eight digits captured by the first
`.devYYYYMMDD` occurrence, if any. -/
def searchDate : List Char → Option (List Char)
  | [] => none
  | c :: rest =>
    match devHead (c :: rest) with
    | some x => some x.1
    | none => searchDate rest

/-- The word-boundary `\b` standing right after a token whose last character
has word-status `lastIsWord`, given the rest of the line. -/
def boundAfter (lastIsWord : Bool) : List Char → Bool
  | [] => lastIsWord
  | c :: _ => lastIsWord != wordChar c

/-- `tok` occurs at the start of `t`, followed by a word boundary `\b`. -/
def tokMatch (tok : List Char) (t : List Char) : Bool :=
  tok.isPrefixOf t &&
    boundAfter (match tok.getLast? with | some c => wordChar c | none => false)
      (t.drop tok.length)

def torchEqTok : List Char := ['t', 'o', 'r', 'c', 'h', '=', '=']

def torchvisionEqTok : List Char :=
  ['t', 'o', 'r', 'c', 'h', 'v', 'i', 's', 'i', 'o', 'n', '=', '=']

def torchXlaTok : List Char := ['t', 'o', 'r', 'c', 'h', '_', 'x', 'l', 'a']

/-- `SCOPE_LINE.search(line)` as a Boolean: the anchored pattern
`^\s*(?:torch(?:vision)?==|torch_xla)\b` matches `line`. -/
def scopeLine (line : List Char) : Bool :=
  let t := line.dropWhile pySpace
  tokMatch torchvisionEqTok t || tokMatch torchEqTok t || tokMatch torchXlaTok t

/-- `str.splitlines` (keepends false), with an accumulator holding the
current line in reverse.  `\r\n` counts as a single boundary. -/
def splitAux : List Char → List Char → List (List Char)
  | cur, [] => if cur.isEmpty then [] else [cur.reverse]
  | cur, '\r' :: '\n' :: rest => cur.reverse :: splitAux [] rest
  | cur, c :: rest =>
    if isLineBreak c then cur.reverse :: splitAux [] rest
    else splitAux (c :: cur) rest

def splitlines (txt : List Char) : List (List Char) := splitAux [] txt

/-- Python `"\n".join(lines)`. -/
def joinLines : List (List Char) → List Char
  | [] => []
  | [l] => l
  | l :: l2 :: rest => l ++ '\n' :: joinLines (l2 :: rest)

/-- Python `txt.endswith("\n")`. -/
def endsWithLF (txt : List Char) : Bool := txt.getLast? == some '\n'

/-- The loop of `detect_first_date`: the first scoped line carrying a
`.devYYYYMMDD` token yields its eight digits; otherwise the empty string. -/
def detectLines : List (List Char) → List Char
  | [] => []
  | l :: rest =>
    if scopeLine l then
      match searchDate l with
      | some ds => ds
      | none => detectLines rest
    else detectLines rest

/-- `detect_first_date(txt)`; the empty list models Python's `""`. -/
def detect_first_date (txt : List Char) : List Char := detectLines (splitlines txt)

/-- The body of the `patch_dates` loop for one line. -/
def patchLine (nightly : List Char) (line : List Char) : List Char × Nat :=
  if scopeLine line then subnDate nightly line else (line, 0)

/-- `patch_dates(txt, nightly)`: rewrite `.devYYYYMMDD` tokens on scoped
lines, rejoin with `"\n"`, preserve a trailing `"\n"` if the input had one,
and count the replacements. -/
def patch_dates (txt : List Char) (nightly : List Char) : List Char × Nat :=
  (joinLines ((splitlines txt).map fun l => (patchLine nightly l).1) ++
      (if endsWithLF txt then ['\n'] else []),
   ((splitlines txt).map fun l => (patchLine nightly l).2).sum)

/-- Every line-boundary character occurring in `txt` is `'\n'`. -/
def onlyLF (txt : List Char) : Bool := txt.all fun c => !isLineBreak c || c == '\n'

/-- `l` contains no line-boundary character at all (true of every line
produced by `splitlines`). -/
def lineFree (l : List Char) : Bool := l.all fun c => !isLineBreak c

/-! ### The command-line driver `main`, as a pure function -/

/-- The JSON result record built by `main` (the `nightly_date`, `patched`
and `file` fields). -/
structure ResultRecord where
  nightly_date : List Char
  patched : Bool
  file : List Char
deriving DecidableEq, Repr

/-- An abstract invocation of the script: the `--file` argument together
with the content found there (`none`: the file does not exist), and the
remaining command-line flags. -/
structure MainInput where
  filePath : List Char
  fileContent : Option (List Char)
  setDate : Option (List Char)
  outEnv : Bool
  jsonOut : Bool
  noWrite : Bool
deriving DecidableEq, Repr

/-- The observable outcome of `main`: the exit code, whether an error was
printed to stderr, the text written over the requirements file by
`write_text_atomic` (if any), the content of the env file (if written), and
the emitted JSON record (if any). -/
structure MainResult where
  exitCode : Nat
  errOut : Bool
  fileWritten : Option (List Char)
  envWritten : Option (List Char)
  jsonEmitted : Option ResultRecord
deriving DecidableEq, Repr

/-- Python truthiness of `args.set_date` (`None` and `""` are falsy). -/
def truthyStr : Option (List Char) → Bool
  | none => false
  | some s => !s.isEmpty

/-- Content of the `--out-env` file: `export VLLM_NIGHTLY_DATE="<date>"\n`. -/
def envContent (nightly : List Char) : List Char :=
  ("export VLLM_NIGHTLY_DATE=".toList ++ '"' :: nightly) ++ ['"', '\n']

/-- The script's `main`, modelled as a pure function.  The requirements
file is read before anything else (`sys.exit(2)` if absent); a truthy
`--set-date` is then validated (`sys.exit(1)` on bad format) and applied;
otherwise the date is detected (`sys.exit(1)` if absent); finally the env
file and the JSON record are emitted. -/
def runMain (inp : MainInput) : MainResult :=
  match inp.fileContent with
  | none => ⟨2, true, none, none, none⟩
  | some txt =>
    if truthyStr inp.setDate then
      let sd := inp.setDate.getD []
      if !isDate8 sd then ⟨1, true, none, none, none⟩
      else
        let r := patch_dates txt sd
        { exitCode := 0
          errOut := false
          fileWritten := if !inp.noWrite && r.1 != txt then some r.1 else none
          envWritten := if inp.outEnv then some (envContent sd) else none
          jsonEmitted := some ⟨('d' :: 'e' :: 'v' :: sd), decide (0 < r.2), inp.filePath⟩ }
    else
      let nightly := detect_first_date txt
      if nightly.isEmpty then ⟨1, true, none, none, none⟩
      else
        { exitCode := 0
          errOut := false
          fileWritten := none
          envWritten := if inp.outEnv then some (envContent nightly) else none
          jsonEmitted := some ⟨('d' :: 'e' :: 'v' :: nightly), false, inp.filePath⟩ }

/-! ### Spec-side scope predicates (for comparison with `scopeLine`) -/

/-- The scope rule as the specification words it: the whitespace-trimmed
line begins with one of the three package prefixes (no boundary condition). -/
def scopeLineClaim (line : List Char) : Bool :=
  let t := line.dropWhile pySpace
  torchEqTok.isPrefixOf t || torchvisionEqTok.isPrefixOf t || torchXlaTok.isPrefixOf t

def headIsWord (l : List Char) : Bool :=
  match l.head? with
  | some c => wordChar c
  | none => false

def headAbsentOrNonWord (l : List Char) : Bool :=
  match l.head? with
  | some c => !wordChar c
  | none => true

/-- The amended scope rule: after `torch==`/`torchvision==` a word character
(letter, digit or underscore) must follow at once; after `torch_xla` the
line must end or continue with a non-word character. -/
def scopeLineAmended (line : List Char) : Bool :=
  let t := line.dropWhile pySpace
  (torchvisionEqTok.isPrefixOf t && headIsWord (t.drop 13)) ||
  (torchEqTok.isPrefixOf t && headIsWord (t.drop 7)) ||
  (torchXlaTok.isPrefixOf t && headAbsentOrNonWord (t.drop 9))

/-! ### Facts about `devHead` -/

theorem devHead_some_shape {s : List Char} {x : List Char × List Char}
    (h : devHead s = some x) :
    s = devTok ++ x.1 ++ x.2 ∧ x.1.length = 8 ∧ x.1.all Char.isDigit = true ∧
      x.2 = s.drop 12 := by
  unfold devHead at h
  split at h
  case isFalse => exact absurd h (by simp)
  case isTrue hcond =>
    obtain ⟨h1, h2, h3⟩ := hcond
    injection h with h
    subst h
    refine ⟨?_, ?_, h3, rfl⟩
    · conv_lhs => rw [← List.take_append_drop 4 s]
      rw [h1, List.append_assoc]
      congr 1
      conv_lhs => rw [← List.take_append_drop 8 (s.drop 4)]
      rw [List.drop_drop]
    · rw [List.length_take, List.length_drop]
      omega

theorem devHead_some_len {s : List Char} {x : List Char × List Char}
    (h : devHead s = some x) : x.2.length < s.length := by
  obtain ⟨hs, h8, -, h12⟩ := devHead_some_shape h
  have hlen : 12 ≤ s.length := by
    rw [hs]
    simp [devTok, h8]
  rw [h12, List.length_drop]
  omega

theorem devHead_build {D r : List Char} (h8 : D.length = 8)
    (hd : D.all Char.isDigit = true) :
    devHead ((devTok ++ D) ++ r) = some (D, r) := by
  have htake : ((devTok ++ D) ++ r).take 4 = devTok := by
    rw [List.append_assoc]
    have : (4 : Nat) = devTok.length := rfl
    rw [this, List.take_left]
  have hdrop : ((devTok ++ D) ++ r).drop 4 = D ++ r := by
    rw [List.append_assoc]
    have : (4 : Nat) = devTok.length := rfl
    rw [this, List.drop_left]
  have htake8 : (((devTok ++ D) ++ r).drop 4).take 8 = D := by
    rw [hdrop, ← h8, List.take_left]
  have hdrop12 : ((devTok ++ D) ++ r).drop 12 = r := by
    have h12 : (12 : Nat) = 4 + 8 := rfl
    rw [h12, ← List.drop_drop, hdrop, ← h8, List.drop_left]
  unfold devHead
  rw [if_pos]
  · rw [htake8, hdrop12]
  · refine ⟨htake, ?_, by rw [htake8]; exact hd⟩
    simp [devTok, h8]

/-! ### Unfolding equations for `subnDate` -/

theorem subnSkip_drop (D : List Char) (s : List Char) :
    ∀ k, subnSkip D k s = subnSkip D 0 (s.drop k) := by
  induction s with
  | nil => intro k; cases k <;> rfl
  | cons c rest ih =>
    intro k
    cases k with
    | zero => rfl
    | succ k =>
      show subnSkip D k rest = _
      rw [ih k]
      rfl

theorem subn_nil (D : List Char) : subnDate D [] = ([], 0) := rfl

theorem subn_cons_none {c : Char} {rest : List Char} (D : List Char)
    (h : devHead (c :: rest) = none) :
    subnDate D (c :: rest) = (c :: (subnDate D rest).1, (subnDate D rest).2) := by
  show subnSkip D 0 (c :: rest) = _
  unfold subnSkip
  rw [h]
  rfl

theorem subn_eq_some {s : List Char} {x : List Char × List Char} (D : List Char)
    (h : devHead s = some x) :
    subnDate D s = ((devTok ++ D) ++ (subnDate D x.2).1, (subnDate D x.2).2 + 1) := by
  cases s with
  | nil => exact absurd h (by simp [devHead])
  | cons c rest =>
    have h2 := (devHead_some_shape h).2.2.2
    show subnSkip D 0 (c :: rest) = _
    unfold subnSkip
    rw [h, subnSkip_drop D rest 11]
    have : rest.drop 11 = x.2 := by rw [h2]; rfl
    rw [this]
    rfl

/-! ### Character-class preservation -/

/-- Two lines agree character class by character class: at each position
they carry either the very same character, or two (possibly different)
ASCII digits.  `DATE_PAT.subn` rewrites a line to a `ClassEq`-related one,
which is why scope membership and match positions survive patching. -/
inductive ClassEq : List Char → List Char → Prop
  | nil : ClassEq [] []
  | same (c : Char) {s t : List Char} (h : ClassEq s t) : ClassEq (c :: s) (c :: t)
  | digit {c d : Char} {s t : List Char} (hc : c.isDigit = true)
      (hd : d.isDigit = true) (h : ClassEq s t) : ClassEq (c :: s) (d :: t)

theorem ClassEq.rfl : ∀ l : List Char, ClassEq l l
  | [] => ClassEq.nil
  | c :: rest => ClassEq.same c (ClassEq.rfl rest)

theorem ClassEq.symm {s t : List Char} (h : ClassEq s t) : ClassEq t s := by
  induction h with
  | nil => exact ClassEq.nil
  | same c _ ih => exact ClassEq.same c ih
  | digit hc hd _ ih => exact ClassEq.digit hd hc ih

theorem ClassEq.length_eq {s t : List Char} (h : ClassEq s t) : s.length = t.length := by
  induction h with
  | nil => rfl
  | same c _ ih => simp [ih]
  | digit _ _ _ ih => simp [ih]

theorem ClassEq.append {s t u v : List Char} (h : ClassEq s t) (h2 : ClassEq u v) :
    ClassEq (s ++ u) (t ++ v) := by
  induction h with
  | nil => exact h2
  | same c _ ih => exact ClassEq.same c ih
  | digit hc hd _ ih => exact ClassEq.digit hc hd ih

theorem ClassEq.take {s t : List Char} (h : ClassEq s t) :
    ∀ n, ClassEq (s.take n) (t.take n) := by
  induction h with
  | nil => intro n; cases n <;> exact ClassEq.nil
  | same c _ ih =>
    intro n
    cases n with
    | zero => exact ClassEq.nil
    | succ n => exact ClassEq.same c (ih n)
  | digit hc hd _ ih =>
    intro n
    cases n with
    | zero => exact ClassEq.nil
    | succ n => exact ClassEq.digit hc hd (ih n)

theorem ClassEq.drop {s t : List Char} (h : ClassEq s t) :
    ∀ n, ClassEq (s.drop n) (t.drop n) := by
  induction h with
  | nil => intro n; cases n <;> exact ClassEq.nil
  | same c h2 ih =>
    intro n
    cases n with
    | zero => exact ClassEq.same c h2
    | succ n => exact ih n
  | digit hc hd h2 ih =>
    intro n
    cases n with
    | zero => exact ClassEq.digit hc hd h2
    | succ n => exact ih n

theorem classEq_of_digits :
    ∀ {a b : List Char}, a.all Char.isDigit = true → b.all Char.isDigit = true →
      a.length = b.length → ClassEq a b
  | [], [], _, _, _ => ClassEq.nil
  | c :: a, d :: b, ha, hb, hl => by
    simp only [List.all_cons, Bool.and_eq_true] at ha hb
    exact ClassEq.digit ha.1 hb.1
      (classEq_of_digits ha.2 hb.2 (by simpa using hl))

theorem ClassEq.eq_of_nondigit {s t : List Char} (h : ClassEq s t)
    (hnd : ∀ c ∈ t, c.isDigit = false) : s = t := by
  induction h with
  | nil => rfl
  | same c _ ih =>
    rw [ih fun c hc => hnd c (List.mem_cons_of_mem _ hc)]
  | digit hc hd _ ih =>
    rename_i c d _ _ _
    have := hnd d (List.mem_cons_self d _)
    rw [this] at hd
    exact absurd hd (by simp)

theorem ClassEq.all_digit {s t : List Char} (h : ClassEq s t)
    (ht : t.all Char.isDigit = true) : s.all Char.isDigit = true := by
  induction h with
  | nil => rfl
  | same c _ ih =>
    simp only [List.all_cons, Bool.and_eq_true] at ht ⊢
    exact ⟨ht.1, ih ht.2⟩
  | digit hc hd _ ih =>
    simp only [List.all_cons, Bool.and_eq_true] at ht ⊢
    exact ⟨hc, ih ht.2⟩

theorem devHead_none_classEq {s t : List Char} (hc : ClassEq s t)
    (h : devHead s = none) : devHead t = none := by
  cases hx : devHead t with
  | none => rfl
  | some y =>
    exfalso
    unfold devHead at hx
    split at hx
    case isFalse => exact absurd hx (by simp)
    case isTrue hcond =>
      obtain ⟨h1, h2, h3⟩ := hcond
      have e1 : s.take 4 = devTok := by
        have h4 := hc.take 4
        rw [h1] at h4
        exact h4.eq_of_nondigit (by decide)
      have e2 : 12 ≤ s.length := by rw [hc.length_eq]; exact h2
      have e3 : ((s.drop 4).take 8).all Char.isDigit = true :=
        ClassEq.all_digit ((hc.drop 4).take 8) h3
      unfold devHead at h
      rw [if_pos ⟨e1, e2, e3⟩] at h
      exact absurd h (by simp)

/-! ### Digit characters versus the other character classes -/

theorem digit_not_space {c : Char} (h : c.isDigit = true) : pySpace c = false := by
  by_contra hc
  rw [Bool.not_eq_false] at hc
  have hm : c ∈ pySpaceChars := by
    simpa [pySpace, List.contains_iff_exists_mem_beq, beq_iff_eq, eq_comm] using hc
  fin_cases hm <;> exact absurd h (by decide)

theorem digit_not_break {c : Char} (h : c.isDigit = true) : isLineBreak c = false := by
  by_contra hc
  rw [Bool.not_eq_false] at hc
  have hm : c ∈ lineBreakChars := by
    simpa [isLineBreak, List.contains_iff_exists_mem_beq, beq_iff_eq, eq_comm] using hc
  fin_cases hm <;> exact absurd h (by decide)

theorem digit_word {c : Char} (h : c.isDigit = true) : wordChar c = true := by
  simp [wordChar, Char.isAlphanum, h]

theorem digit_beq_false {c d : Char} (hc : c.isDigit = false) (hd : d.isDigit = true) :
    (c == d) = false := by
  by_contra hb
  rw [Bool.not_eq_false, beq_iff_eq] at hb
  subst hb
  rw [hc] at hd
  exact absurd hd (by simp)

/-! ### `subnDate` preserves character classes and is idempotent -/

theorem subn_classEq (D : List Char) (h8 : D.length = 8)
    (hd : D.all Char.isDigit = true) : ∀ s, ClassEq s (subnDate D s).1
  | [] => by rw [subn_nil]; exact ClassEq.nil
  | c :: rest => by
    cases h : devHead (c :: rest) with
    | none =>
      rw [subn_cons_none D h]
      exact ClassEq.same c (subn_classEq D h8 hd rest)
    | some x =>
      rw [subn_eq_some D h]
      obtain ⟨hs, hx8, hxd, -⟩ := devHead_some_shape h
      rw [hs]
      exact ClassEq.append
        (ClassEq.append (ClassEq.rfl devTok)
          (classEq_of_digits hxd hd (hx8.trans h8.symm)))
        (subn_classEq D h8 hd x.2)
termination_by s => s.length
decreasing_by
  · simp
  · simpa using devHead_some_len h

theorem subn_idem (D : List Char) (h8 : D.length = 8)
    (hd : D.all Char.isDigit = true) :
    ∀ s, (subnDate D (subnDate D s).1).1 = (subnDate D s).1
  | [] => by rw [subn_nil]; rfl
  | c :: rest => by
    cases h : devHead (c :: rest) with
    | none =>
      rw [subn_cons_none D h]
      have hnone : devHead (c :: (subnDate D rest).1) = none :=
        devHead_none_classEq (ClassEq.same c (subn_classEq D h8 hd rest)) h
      rw [subn_cons_none D hnone, subn_idem D h8 hd rest]
    | some x =>
      rw [subn_eq_some D h]
      have hb : devHead ((devTok ++ D) ++ (subnDate D x.2).1) =
          some (D, (subnDate D x.2).1) := devHead_build h8 hd
      rw [subn_eq_some D hb, subn_idem D h8 hd x.2]
termination_by s => s.length
decreasing_by
  · simp
  · simpa using devHead_some_len h

/-! ### `searchDate` after `subnDate` -/

theorem searchDate_cons_some {c : Char} {rest : List Char} {x : List Char × List Char}
    (h : devHead (c :: rest) = some x) : searchDate (c :: rest) = some x.1 := by
  have e : searchDate (c :: rest) =
      match devHead (c :: rest) with
      | some x => some x.1
      | none => searchDate rest := rfl
  rw [e, h]

theorem searchDate_cons_none {c : Char} {rest : List Char}
    (h : devHead (c :: rest) = none) : searchDate (c :: rest) = searchDate rest := by
  have e : searchDate (c :: rest) =
      match devHead (c :: rest) with
      | some x => some x.1
      | none => searchDate rest := rfl
  rw [e, h]

theorem searchDate_eq_some {s : List Char} {x : List Char × List Char}
    (h : devHead s = some x) : searchDate s = some x.1 := by
  cases s with
  | nil => exact absurd h (by simp [devHead])
  | cons c rest => exact searchDate_cons_some h

theorem subn_of_search_none (D : List Char) (s : List Char)
    (h : searchDate s = none) : subnDate D s = (s, 0) := by
  induction s with
  | nil => rfl
  | cons c rest ih =>
    cases hdh : devHead (c :: rest) with
    | some x => rw [searchDate_cons_some hdh] at h; exact absurd h (by simp)
    | none =>
      rw [searchDate_cons_none hdh] at h
      rw [subn_cons_none D hdh, ih h]

theorem search_subn_some (D : List Char) (h8 : D.length = 8)
    (hd : D.all Char.isDigit = true) (s : List Char) (h : searchDate s ≠ none) :
    searchDate (subnDate D s).1 = some D := by
  induction s with
  | nil => exact absurd rfl h
  | cons c rest ih =>
    cases hdh : devHead (c :: rest) with
    | some x =>
      rw [subn_eq_some D hdh]
      rw [searchDate_eq_some (devHead_build h8 hd)]
    | none =>
      rw [searchDate_cons_none hdh] at h
      rw [subn_cons_none D hdh]
      have hn2 : devHead (c :: (subnDate D rest).1) = none :=
        devHead_none_classEq (ClassEq.same c (subn_classEq D h8 hd rest)) hdh
      rw [searchDate_cons_none hn2]
      exact ih h

/-! ### `scopeLine` is invariant under `ClassEq` -/

theorem classEq_dropWhile {s t : List Char} (h : ClassEq s t) :
    ClassEq (s.dropWhile pySpace) (t.dropWhile pySpace) := by
  induction h with
  | nil => exact ClassEq.nil
  | same c h2 ih =>
    by_cases hc : pySpace c
    · simpa [List.dropWhile_cons, hc] using ih
    · simpa [List.dropWhile_cons, hc] using ClassEq.same c h2
  | digit hc hd h2 ih =>
    simpa [List.dropWhile_cons, digit_not_space hc, digit_not_space hd] using
      ClassEq.digit hc hd h2

theorem cons_isPrefixOf_cons (a : Char) (as : List Char) (b : Char) (bs : List Char) :
    (a :: as).isPrefixOf (b :: bs) = (a == b && as.isPrefixOf bs) := rfl

theorem isPrefixOf_classEq {tok : List Char} (hnd : ∀ c ∈ tok, c.isDigit = false) :
    ∀ {a b : List Char}, ClassEq a b → tok.isPrefixOf a = tok.isPrefixOf b := by
  induction tok with
  | nil => intro a b _; cases a <;> cases b <;> rfl
  | cons c tok ih =>
    intro a b h
    cases h with
    | nil => rfl
    | same d h2 =>
      rw [cons_isPrefixOf_cons, cons_isPrefixOf_cons,
        ih (fun c2 hc2 => hnd c2 (List.mem_cons_of_mem _ hc2)) h2]
    | digit hc2 hd2 h2 =>
      have hcn := hnd c (List.mem_cons_self c tok)
      rw [cons_isPrefixOf_cons, cons_isPrefixOf_cons,
        digit_beq_false hcn hc2, digit_beq_false hcn hd2]
      simp

theorem boundAfter_classEq (w : Bool) {a b : List Char} (h : ClassEq a b) :
    boundAfter w a = boundAfter w b := by
  cases h with
  | nil => rfl
  | same c h2 => rfl
  | digit hc hd h2 => simp [boundAfter, digit_word hc, digit_word hd]

theorem tokMatch_classEq {tok : List Char} (hnd : ∀ c ∈ tok, c.isDigit = false)
    {a b : List Char} (h : ClassEq a b) : tokMatch tok a = tokMatch tok b := by
  unfold tokMatch
  rw [isPrefixOf_classEq hnd h, boundAfter_classEq _ (h.drop tok.length)]

theorem scope_classEq {a b : List Char} (h : ClassEq a b) : scopeLine a = scopeLine b := by
  have h2 := classEq_dropWhile h
  show (tokMatch torchvisionEqTok (a.dropWhile pySpace) ||
      tokMatch torchEqTok (a.dropWhile pySpace) ||
      tokMatch torchXlaTok (a.dropWhile pySpace)) = _
  rw [tokMatch_classEq (by decide) h2, tokMatch_classEq (by decide) h2,
    tokMatch_classEq (by decide) h2]
  rfl

theorem classEq_all_nonbreak {a b : List Char} (h : ClassEq a b)
    (ha : a.all (fun c => !isLineBreak c) = true) :
    b.all (fun c => !isLineBreak c) = true := by
  induction h with
  | nil => rfl
  | same c h2 ih =>
    simp only [List.all_cons, Bool.and_eq_true] at ha ⊢
    exact ⟨ha.1, ih ha.2⟩
  | digit hc hd h2 ih =>
    simp only [List.all_cons, Bool.and_eq_true] at ha ⊢
    exact ⟨by simp [digit_not_break hd], ih ha.2⟩

/-! ### Step equations for `splitAux` -/

theorem sa_lf (cur rest : List Char) :
    splitAux cur ('\n' :: rest) = cur.reverse :: splitAux [] rest := rfl

theorem sa_crlf (cur rest : List Char) :
    splitAux cur ('\r' :: '\n' :: rest) = cur.reverse :: splitAux [] rest := rfl

theorem sa_nonbreak {c : Char} (h : isLineBreak c = false) (cur rest : List Char) :
    splitAux cur (c :: rest) = splitAux (c :: cur) rest := by
  rw [splitAux.eq_3 cur c rest ?_]
  · rw [h]
    simp
  · intro r hc _
    rw [hc] at h
    exact absurd h (by decide)

theorem sa_break {c : Char} (hc : c ≠ '\r') (h : isLineBreak c = true)
    (cur rest : List Char) :
    splitAux cur (c :: rest) = cur.reverse :: splitAux [] rest := by
  rw [splitAux.eq_3 cur c rest fun r h1 _ => absurd h1 hc, h]
  simp

/-! ### Lines produced by `splitlines` -/

theorem lineFree_reverse {l : List Char} (h : lineFree l = true) :
    lineFree l.reverse = true := by
  simpa [lineFree] using h

theorem split_lineFree :
    ∀ (s cur : List Char), lineFree cur = true → ∀ l ∈ splitAux cur s, lineFree l = true
  | [], cur => by
    intro hcur l hl
    rw [splitAux.eq_1] at hl
    split at hl
    · cases hl
    · rw [List.mem_singleton] at hl
      subst hl
      exact lineFree_reverse hcur
  | c :: rest, cur => by
    intro hcur l hl
    by_cases hg : ∀ (r2 : List Char), c = '\r' → rest = '\n' :: r2 → False
    · rw [splitAux.eq_3 cur c rest hg] at hl
      split at hl
      next hbr =>
        rcases List.mem_cons.mp hl with h | h
        · subst h; exact lineFree_reverse hcur
        · exact split_lineFree rest [] rfl l h
      next hbr =>
        refine split_lineFree rest (c :: cur) ?_ l hl
        simp only [lineFree, List.all_cons, Bool.and_eq_true]
        exact ⟨by simpa using hbr, hcur⟩
    · push_neg at hg
      obtain ⟨r2, hc, hr, -⟩ := hg
      subst hc hr
      rw [sa_crlf] at hl
      rcases List.mem_cons.mp hl with h | h
      · subst h; exact lineFree_reverse hcur
      · exact split_lineFree r2 [] rfl l h
termination_by s cur => s.length

theorem splitlines_lineFree {txt : List Char} :
    ∀ l ∈ splitlines txt, lineFree l = true :=
  split_lineFree txt [] rfl

theorem sa_eq_nil : ∀ (s cur : List Char), splitAux cur s = [] → cur = [] ∧ s = []
  | [], cur => by
    intro h
    rw [splitAux.eq_1] at h
    split at h
    case isTrue he => exact ⟨List.isEmpty_iff.mp he, rfl⟩
    case isFalse => cases h
  | c :: rest, cur => by
    intro h
    by_cases hg : ∀ (r2 : List Char), c = '\r' → rest = '\n' :: r2 → False
    · rw [splitAux.eq_3 cur c rest hg] at h
      split at h
      · cases h
      · exact absurd (sa_eq_nil rest (c :: cur) h).1 (by simp)
    · push_neg at hg
      obtain ⟨r2, hc, hr, -⟩ := hg
      subst hc hr
      rw [sa_crlf] at h
      cases h
termination_by s _ => s.length

theorem splitlines_eq_nil_iff {txt : List Char} : splitlines txt = [] ↔ txt = [] := by
  constructor
  · intro h
    exact (sa_eq_nil txt [] h).2
  · intro h
    subst h
    rfl

/-! ### `splitlines` on texts assembled from line-free lines -/

theorem sa_append_lf :
    ∀ (l : List Char), lineFree l = true → ∀ (rest cur : List Char),
      splitAux cur (l ++ '\n' :: rest) = (cur.reverse ++ l) :: splitAux [] rest := by
  intro l
  induction l with
  | nil =>
    intro _ rest cur
    simpa using sa_lf cur rest
  | cons c l ih =>
    intro hl rest cur
    simp only [lineFree, List.all_cons, Bool.and_eq_true] at hl
    have h1 : isLineBreak c = false := by simpa using hl.1
    rw [List.cons_append, sa_nonbreak h1, ih hl.2 rest (c :: cur)]
    simp

theorem split_append_lf {l : List Char} (hl : lineFree l = true) (rest : List Char) :
    splitlines (l ++ '\n' :: rest) = l :: splitlines rest := by
  simpa [splitlines] using sa_append_lf l hl rest []

theorem sa_all_content :
    ∀ (l : List Char), lineFree l = true → ∀ cur : List Char,
      splitAux cur l = if (cur.reverse ++ l).isEmpty then [] else [cur.reverse ++ l] := by
  intro l
  induction l with
  | nil =>
    intro _ cur
    rw [splitAux.eq_1]
    cases cur <;> simp
  | cons c l ih =>
    intro hl cur
    simp only [lineFree, List.all_cons, Bool.and_eq_true] at hl
    have h1 : isLineBreak c = false := by simpa using hl.1
    rw [sa_nonbreak h1, ih hl.2 (c :: cur)]
    simp

theorem split_all_content {l : List Char} (hl : lineFree l = true) :
    splitlines l = if l.isEmpty then [] else [l] := by
  simpa [splitlines] using sa_all_content l hl []

/-! ### `joinLines` and trailing newlines -/

theorem join_cons_ne {L : List (List Char)} (h : L ≠ []) (a : List Char) :
    joinLines (a :: L) = a ++ '\n' :: joinLines L := by
  cases L with
  | nil => exact absurd rfl h
  | cons b t => rfl

theorem endsWithLF_concat (x : List Char) : endsWithLF (x ++ ['\n']) = true := by
  simp [endsWithLF]

theorem endsWithLF_append_ne {v : List Char} (hv : v ≠ []) (u : List Char) :
    endsWithLF (u ++ v) = endsWithLF v := by
  simp [endsWithLF, List.getLast?_append_of_ne_nil _ hv]

theorem endsWithLF_cons_ne {rest : List Char} (h : rest ≠ []) (c : Char) :
    endsWithLF (c :: rest) = endsWithLF rest := by
  have : c :: rest = [c] ++ rest := rfl
  rw [this, endsWithLF_append_ne h]

theorem lineFree_not_endsWithLF {l : List Char} (h : lineFree l = true) :
    endsWithLF l = false := by
  cases hE : l.getLast? with
  | none => simp [endsWithLF, hE]
  | some c =>
    have hm : c ∈ l := List.mem_of_mem_getLast? hE
    have := List.all_eq_true.mp h c hm
    have hc : c ≠ '\n' := by
      intro he
      subst he
      rw [show isLineBreak '\n' = true from by decide] at this
      exact absurd this (by simp)
    simp [endsWithLF, hE, hc]

theorem join_eq_nil {L : List (List Char)} :
    joinLines L = [] ↔ L = [] ∨ L = [[]] := by
  constructor
  · intro h
    cases L with
    | nil => exact Or.inl rfl
    | cons a t =>
      cases t with
      | nil =>
        rw [show joinLines [a] = a from rfl] at h
        subst h
        exact Or.inr rfl
      | cons b t2 =>
        rw [join_cons_ne (by simp) a] at h
        exact absurd h (by simp)
  · rintro (rfl | rfl) <;> rfl

/-- `splitlines` recovers the lines from `"\n".join(lines) ++ "\n"`. -/
theorem split_join_concat {L : List (List Char)} (hL : ∀ l ∈ L, lineFree l = true)
    (hne : L ≠ []) : splitlines (joinLines L ++ ['\n']) = L := by
  induction L with
  | nil => exact absurd rfl hne
  | cons a t ih =>
    cases t with
    | nil =>
      rw [show joinLines [a] = a from rfl]
      have : a ++ ['\n'] = a ++ '\n' :: [] := rfl
      rw [this, split_append_lf (hL a (List.mem_cons_self a _)) []]
      rfl
    | cons b t2 =>
      rw [join_cons_ne (by simp) a, List.append_assoc, List.cons_append]
      rw [split_append_lf (hL a (List.mem_cons_self a _))]
      rw [ih (fun l hl => hL l (List.mem_cons_of_mem a hl)) (by simp)]

/-- `splitlines` after `"\n".join`: only a single trailing empty line is
swallowed. -/
theorem split_join {L : List (List Char)} (hL : ∀ l ∈ L, lineFree l = true) :
    splitlines (joinLines L) =
      if L.getLast? = some ([] : List Char) then L.dropLast else L := by
  induction L with
  | nil => rfl
  | cons a t ih =>
    cases t with
    | nil =>
      rw [show joinLines [a] = a from rfl]
      rw [split_all_content (hL a (List.mem_cons_self a _))]
      cases a <;> simp
    | cons b t2 =>
      rw [join_cons_ne (by simp) a]
      rw [split_append_lf (hL a (List.mem_cons_self a _))]
      rw [ih fun l hl => hL l (List.mem_cons_of_mem a hl)]
      have hlast : (a :: b :: t2).getLast? = (b :: t2).getLast? := by
        rw [List.getLast?_cons_cons]
      rw [hlast]
      split
      · rfl
      · rfl

/-- When does `"\n".join(lines)` end with a newline: exactly when the list
has at least two lines and the last one is empty. -/
theorem endsWithLF_join {L : List (List Char)} (hL : ∀ l ∈ L, lineFree l = true) :
    endsWithLF (joinLines L) =
      (decide (L.getLast? = some ([] : List Char)) && decide (2 ≤ L.length)) := by
  induction L with
  | nil => rfl
  | cons a t ih =>
    cases t with
    | nil =>
      rw [show joinLines [a] = a from rfl,
        lineFree_not_endsWithLF (hL a (List.mem_cons_self a _))]
      simp
    | cons b t2 =>
      rw [join_cons_ne (by simp) a]
      by_cases hj : joinLines (b :: t2) = []
      · rcases join_eq_nil.mp hj with h | h
        · cases h
        · injection h with h1 h2
          subst h1
          subst h2
          rw [hj, show (a ++ '\n' :: ([] : List Char)) = a ++ ['\n'] from rfl,
            endsWithLF_concat]
          simp
      · rw [endsWithLF_append_ne (by simp) a, endsWithLF_cons_ne hj '\n']
        rw [ih fun l hl => hL l (List.mem_cons_of_mem a hl)]
        have hlast : (a :: b :: t2).getLast? = (b :: t2).getLast? := by
          rw [List.getLast?_cons_cons]
        rw [hlast]
        by_cases he : (b :: t2).getLast? = some ([] : List Char)
        · simp only [he]
          have h2 : 2 ≤ (b :: t2).length := by
            cases t2 with
            | nil =>
              rw [show (b :: []).getLast? = some b from rfl] at he
              injection he with he
              subst he
              exact absurd rfl hj
            | cons x t3 => simp
          have h3 : 2 ≤ (a :: b :: t2).length := by simp
          have h4 : 1 ≤ t2.length := by simpa using h2
          simp [h2, h3, h4]
        · simp [he]

/-! ### Reconstruction: texts whose boundaries are all `'\n'` -/

theorem rejoinAux :
    ∀ (s : List Char), onlyLF s = true → ∀ (cur : List Char), lineFree cur = true →
      joinLines (splitAux cur s) ++
          (if endsWithLF (cur.reverse ++ s) then ['\n'] else []) =
        cur.reverse ++ s := by
  intro s
  induction s with
  | nil =>
    intro _ cur hcur
    rw [splitAux.eq_1]
    by_cases hc : cur.isEmpty
    · have : cur = [] := List.isEmpty_iff.mp hc
      subst this
      simp [endsWithLF, joinLines]
    · rw [if_neg hc, show joinLines [cur.reverse] = cur.reverse from rfl,
        List.append_nil, lineFree_not_endsWithLF (lineFree_reverse hcur)]
      simp
  | cons c rest ih =>
    intro hs cur hcur
    have hsc : (!isLineBreak c || c == '\n') = true ∧ onlyLF rest = true := by
      simpa [onlyLF] using hs
    by_cases hbreak : isLineBreak c = true
    · have hcn : c = '\n' := by
        rcases Bool.or_eq_true_iff.mp hsc.1 with h | h
        · rw [hbreak] at h; exact absurd h (by simp)
        · exact beq_iff_eq.mp h
      subst hcn
      rw [sa_lf]
      by_cases hrest : rest = []
      · subst hrest
        rw [show splitAux [] [] = [] from rfl,
          show joinLines [cur.reverse] = cur.reverse from rfl,
          show (cur.reverse ++ '\n' :: []) = cur.reverse ++ ['\n'] from rfl,
          endsWithLF_concat]
        simp
      · have hne : splitAux [] rest ≠ [] := fun h => hrest (sa_eq_nil rest [] h).2
        rw [join_cons_ne hne]
        have hflag : endsWithLF (cur.reverse ++ '\n' :: rest) = endsWithLF rest := by
          rw [endsWithLF_append_ne (by simp) cur.reverse, endsWithLF_cons_ne hrest]
        rw [hflag]
        have ihr := ih hsc.2 [] rfl
        simp only [List.reverse_nil, List.nil_append] at ihr
        rw [List.append_assoc, List.cons_append, ihr]
    · rw [sa_nonbreak (by simpa using hbreak)]
      have hlf : lineFree (c :: cur) = true := by
        simp only [lineFree, List.all_cons, Bool.and_eq_true]
        exact ⟨by simpa using hbreak, hcur⟩
      have ihr := ih hsc.2 (c :: cur) hlf
      have heq : (c :: cur).reverse ++ rest = cur.reverse ++ c :: rest := by simp
      rw [heq] at ihr
      exact ihr

/-- A text whose line boundaries are all `'\n'` is recovered from its lines
plus its trailing-newline flag. -/
theorem rejoin {txt : List Char} (h : onlyLF txt = true) :
    joinLines (splitlines txt) ++ (if endsWithLF txt then ['\n'] else []) = txt := by
  simpa [splitlines] using rejoinAux txt h [] rfl

/-! ### Per-line behaviour of the patch loop -/

theorem isDate8_iff {D : List Char} :
    isDate8 D = true ↔ D.length = 8 ∧ D.all Char.isDigit = true := by
  simp [isDate8]

theorem patchLine_classEq {D : List Char} (hD : isDate8 D = true) (l : List Char) :
    ClassEq l (patchLine D l).1 := by
  obtain ⟨h8, hd⟩ := isDate8_iff.mp hD
  unfold patchLine
  split
  · exact subn_classEq D h8 hd l
  · exact ClassEq.rfl l

theorem patchLine_length {D : List Char} (hD : isDate8 D = true) (l : List Char) :
    (patchLine D l).1.length = l.length :=
  ((patchLine_classEq hD l).length_eq).symm

theorem patchLine_scope {D : List Char} (hD : isDate8 D = true) (l : List Char) :
    scopeLine (patchLine D l).1 = scopeLine l :=
  (scope_classEq (patchLine_classEq hD l)).symm

theorem patchLine_idem {D : List Char} (hD : isDate8 D = true) (l : List Char) :
    (patchLine D (patchLine D l).1).1 = (patchLine D l).1 := by
  obtain ⟨h8, hd⟩ := isDate8_iff.mp hD
  by_cases hs : scopeLine l = true
  · have h1 : (patchLine D l).1 = (subnDate D l).1 := by simp [patchLine, hs]
    have h2 : scopeLine (patchLine D l).1 = true := by rw [patchLine_scope hD l, hs]
    rw [h1] at h2 ⊢
    simp only [patchLine, h2, if_true]
    exact subn_idem D h8 hd l
  · have h1 : (patchLine D l).1 = l := by simp [patchLine, hs]
    rw [h1]
    simp [patchLine, hs]

theorem patchLine_lineFree {D : List Char} (hD : isDate8 D = true) {l : List Char}
    (hl : lineFree l = true) : lineFree (patchLine D l).1 = true :=
  classEq_all_nonbreak (patchLine_classEq hD l) hl

theorem patchLine_nonscope {D l : List Char} (h : scopeLine l = false) :
    patchLine D l = (l, 0) := by
  simp [patchLine, h]

theorem patch_fst (txt D : List Char) :
    (patch_dates txt D).1 =
      joinLines ((splitlines txt).map fun l => (patchLine D l).1) ++
        (if endsWithLF txt then ['\n'] else []) := rfl

theorem patched_lines_lineFree {D : List Char} (hD : isDate8 D = true) (txt : List Char) :
    ∀ l ∈ (splitlines txt).map (fun l => (patchLine D l).1), lineFree l = true := by
  intro l hl
  rcases List.mem_map.mp hl with ⟨l0, hl0, rfl⟩
  exact patchLine_lineFree hD (splitlines_lineFree l0 hl0)

theorem patched_map_idem {D : List Char} (hD : isDate8 D = true) (L : List (List Char)) :
    (L.map fun l => (patchLine D l).1).map (fun l => (patchLine D l).1) =
      L.map fun l => (patchLine D l).1 := by
  rw [List.map_map]
  exact List.map_congr_left fun l _ => patchLine_idem hD l

theorem join_concat_empty :
    ∀ {L : List (List Char)}, L ≠ [] → joinLines (L ++ [[]]) = joinLines L ++ ['\n']
  | [], h => absurd rfl h
  | [a], _ => rfl
  | a :: b :: t, _ => by
    rw [show (a :: b :: t) ++ [[]] = a :: ((b :: t) ++ [[]]) from rfl]
    rw [join_cons_ne (by simp) a, join_concat_empty (L := b :: t) (by simp),
      join_cons_ne (by simp) a]
    simp

theorem getLast_empty_decomp {L : List (List Char)} (h : L ≠ [])
    (hl : L.getLast? = some ([] : List Char)) : L = L.dropLast ++ [[]] := by
  conv_lhs => rw [← List.dropLast_concat_getLast h]
  congr 1
  rw [List.getLast?_eq_getLast _ h] at hl
  injection hl with hl
  rw [hl]

/-- In a text whose boundaries are all `'\n'` and that does not end with
`'\n'`, the final line is nonempty. -/
theorem last_line_nonempty {txt : List Char} (ho : onlyLF txt = true)
    (hne : txt ≠ []) (hflag : endsWithLF txt = false) :
    (splitlines txt).getLast? ≠ some ([] : List Char) := by
  intro hlast
  have hLfree : ∀ l ∈ splitlines txt, lineFree l = true := splitlines_lineFree
  have hLne : splitlines txt ≠ [] := by rwa [Ne, splitlines_eq_nil_iff]
  have hrej := rejoin ho
  rw [hflag] at hrej
  simp only [if_neg (by simp : ¬(false = true)), List.append_nil] at hrej
  by_cases h2 : 2 ≤ (splitlines txt).length
  · have hj := endsWithLF_join hLfree
    rw [hlast] at hj
    simp only [h2, decide_True] at hj
    rw [hrej] at hj
    rw [hflag] at hj
    simp at hj
  · have h1 : (splitlines txt).length = 1 := by
      have : 1 ≤ (splitlines txt).length := List.length_pos.mpr hLne
      omega
    obtain ⟨x, hx⟩ := List.length_eq_one.mp h1
    rw [hx] at hlast
    rw [show ([x] : List (List Char)).getLast? = some x from rfl] at hlast
    injection hlast with hlast
    subst hlast
    rw [hx] at hrej
    rw [show joinLines [([] : List Char)] = [] from rfl] at hrej
    exact hne hrej.symm

/-! ### `splitlines` and trailing newline of the patched text -/

theorem patch_split_flag_true {D txt : List Char} (hD : isDate8 D = true)
    (hflag : endsWithLF txt = true) :
    splitlines (patch_dates txt D).1 =
      (splitlines txt).map fun l => (patchLine D l).1 := by
  have htxtne : txt ≠ [] := by
    intro h
    rw [h] at hflag
    exact absurd hflag (by decide)
  have hLne : splitlines txt ≠ [] := by rwa [Ne, splitlines_eq_nil_iff]
  have hPne : ((splitlines txt).map fun l => (patchLine D l).1) ≠ [] := by
    simpa using hLne
  rw [patch_fst, hflag]
  simp only [if_pos rfl]
  exact split_join_concat (patched_lines_lineFree hD txt) hPne

theorem patch_endsWithLF_flag_true {D txt : List Char} (hflag : endsWithLF txt = true) :
    endsWithLF (patch_dates txt D).1 = true := by
  rw [patch_fst, hflag]
  simp only [if_pos rfl]
  exact endsWithLF_concat _

/-! ### The detection loop -/

theorem detectLines_cons_found {x : List Char} {r : List (List Char)}
    (hs : scopeLine x = true) {ds : List Char} (hf : searchDate x = some ds) :
    detectLines (x :: r) = ds := by
  simp [detectLines, hs, hf]

theorem detectLines_cons_skip {x : List Char} {r : List (List Char)}
    (h : scopeLine x = false ∨ searchDate x = none) :
    detectLines (x :: r) = detectLines r := by
  rcases h with h | h
  · simp [detectLines, h]
  · by_cases hs : scopeLine x = true
    · simp [detectLines, hs, h]
    · have hs2 : scopeLine x = false := by simpa using hs
      simp [detectLines, hs2]

/-- After patching with a valid date, the first scoped-and-dated line
yields exactly that date. -/
theorem detectLines_map_patch {D : List Char} (hD : isDate8 D = true) :
    ∀ (L : List (List Char)), (∃ l ∈ L, scopeLine l = true ∧ searchDate l ≠ none) →
      detectLines (L.map fun l => (patchLine D l).1) = D := by
  intro L
  induction L with
  | nil => rintro ⟨l, hl, -⟩; cases hl
  | cons a t ih =>
    rintro ⟨l, hl, hsc, hsd⟩
    obtain ⟨h8, hd⟩ := isDate8_iff.mp hD
    rw [List.map_cons]
    by_cases hsa : scopeLine a = true
    · have hpa : (patchLine D a).1 = (subnDate D a).1 := by simp [patchLine, hsa]
      have hsa2 : scopeLine (patchLine D a).1 = true := by rw [patchLine_scope hD a, hsa]
      cases hsd_a : searchDate a with
      | some ds =>
        have hfound : searchDate (patchLine D a).1 = some D := by
          rw [hpa]
          exact search_subn_some D h8 hd a (by rw [hsd_a]; simp)
        exact detectLines_cons_found hsa2 hfound
      | none =>
        have hnone : searchDate (patchLine D a).1 = none := by
          rw [hpa, (subn_of_search_none D a hsd_a)]
          exact hsd_a
        rw [detectLines_cons_skip (Or.inr hnone)]
        apply ih
        rcases List.mem_cons.mp hl with rfl | hlt
        · exact absurd hsd_a hsd
        · exact ⟨l, hlt, hsc, hsd⟩
    · have hnsc : scopeLine (patchLine D a).1 = false := by
        rw [patchLine_scope hD a]
        simpa using hsa
      rw [detectLines_cons_skip (Or.inl hnsc)]
      apply ih
      rcases List.mem_cons.mp hl with rfl | hlt
      · exact absurd hsc hsa
      · exact ⟨l, hlt, hsc, hsd⟩

/-! ### Claim theorems -/

/-- Claim C2: patching is idempotent.  For every document text and every
valid 8-digit date `D`, patching the output of `patch_dates` with the same
date again returns byte-identical text. -/
theorem c2_patch_idempotent (txt D : List Char) (hD : isDate8 D = true) :
    (patch_dates (patch_dates txt D).1 D).1 = (patch_dates txt D).1 := by
  have hPfree : ∀ l ∈ (splitlines txt).map (fun l => (patchLine D l).1), lineFree l = true :=
    patched_lines_lineFree hD txt
  have hPidem := patched_map_idem hD (splitlines txt)
  by_cases hflag : endsWithLF txt = true
  · have hsplit := patch_split_flag_true hD hflag (D := D)
    have hflagO := patch_endsWithLF_flag_true (D := D) hflag
    rw [patch_fst (patch_dates txt D).1 D, hsplit, hPidem, hflagO]
    rw [patch_fst txt D, hflag]
  · rw [Bool.not_eq_true] at hflag
    have hO : (patch_dates txt D).1 =
        joinLines ((splitlines txt).map fun l => (patchLine D l).1) := by
      rw [patch_fst, hflag]
      simp
    by_cases hP0 : ((splitlines txt).map fun l => (patchLine D l).1) = []
    · rw [hO, hP0]
      rfl
    · by_cases hlast :
          ((splitlines txt).map fun l => (patchLine D l).1).getLast? =
            some ([] : List Char)
      · by_cases hPd : ((splitlines txt).map fun l => (patchLine D l).1).dropLast = []
        · have hP1 : ((splitlines txt).map fun l => (patchLine D l).1) = [[]] := by
            have := getLast_empty_decomp hP0 hlast
            rw [hPd] at this
            simpa using this
          have hO2 : (patch_dates txt D).1 = [] := by
            rw [hO, hP1]
            rfl
          rw [hO2]
          rfl
        · have hsplit : splitlines (patch_dates txt D).1 =
              ((splitlines txt).map fun l => (patchLine D l).1).dropLast := by
            rw [hO, split_join hPfree, if_pos hlast]
          have hlen2 : 2 ≤ ((splitlines txt).map fun l => (patchLine D l).1).length := by
            have hd1 : 1 ≤ ((splitlines txt).map fun l => (patchLine D l).1).dropLast.length :=
              List.length_pos.mpr hPd
            have := List.length_dropLast ((splitlines txt).map fun l => (patchLine D l).1)
            omega
          have hlen2b : 2 ≤ (splitlines txt).length := by simpa using hlen2
          have hflagO : endsWithLF (patch_dates txt D).1 = true := by
            rw [hO, endsWithLF_join hPfree]
            simp [hlast, hlen2, hlen2b]
          rw [patch_fst (patch_dates txt D).1 D, hsplit, hflagO]
          rw [List.map_dropLast, hPidem, if_pos rfl]
          rw [← join_concat_empty hPd, ← getLast_empty_decomp hP0 hlast, hO]
      · have hsplit : splitlines (patch_dates txt D).1 =
            (splitlines txt).map fun l => (patchLine D l).1 := by
          rw [hO, split_join hPfree, if_neg hlast]
        have hflagO : endsWithLF (patch_dates txt D).1 = false := by
          rw [hO, endsWithLF_join hPfree, decide_eq_false hlast]
          simp
        rw [patch_fst (patch_dates txt D).1 D, hsplit, hPidem, hflagO]
        rw [hO]
        simp

/-- The mapped line list cannot end in an empty line when the source text
has only `'\n'` boundaries and no trailing newline. -/
theorem patched_last_ne_empty {txt D : List Char} (hD : isDate8 D = true)
    (ho : onlyLF txt = true) (htxt : txt ≠ []) (hflag : endsWithLF txt = false) :
    ((splitlines txt).map fun l => (patchLine D l).1).getLast? ≠
      some ([] : List Char) := by
  intro hcon
  rw [List.getLast?_map] at hcon
  cases hx : (splitlines txt).getLast? with
  | none => rw [hx] at hcon; cases hcon
  | some x =>
    rw [hx] at hcon
    injection hcon with hcon
    have hcon2 : (patchLine D x).1 = [] := hcon
    have hx0 : x = [] := by
      have := patchLine_length hD x
      rw [hcon2] at this
      exact List.length_eq_zero.mp this.symm
    subst hx0
    exact last_line_nonempty ho htxt hflag hx

/-- Claim C6 (amended): for documents whose line boundaries are all `'\n'`
and valid 8-digit dates, the patched text ends with `'\n'` exactly when the
input does. -/
theorem c6_trailing_newline (txt D : List Char) (ho : onlyLF txt = true)
    (hD : isDate8 D = true) :
    endsWithLF (patch_dates txt D).1 = endsWithLF txt := by
  by_cases hflag : endsWithLF txt = true
  · rw [patch_endsWithLF_flag_true hflag, hflag]
  · rw [Bool.not_eq_true] at hflag
    rw [hflag]
    have hO : (patch_dates txt D).1 =
        joinLines ((splitlines txt).map fun l => (patchLine D l).1) := by
      rw [patch_fst, hflag]
      simp
    by_cases htxt : txt = []
    · subst htxt
      rfl
    · have hlastP := patched_last_ne_empty hD ho htxt hflag
      rw [hO, endsWithLF_join (patched_lines_lineFree hD txt),
        decide_eq_false hlastP]
      simp

/-- Claim C5 (amended): for documents whose line boundaries are all `'\n'`
and valid 8-digit dates, patching maps the lines one-to-one in order,
leaves every non-scoped line unchanged, and leaves the whole text
byte-identical when no line is scoped. -/
theorem c5_frame (txt D : List Char) (ho : onlyLF txt = true)
    (hD : isDate8 D = true) :
    splitlines (patch_dates txt D).1 =
        (splitlines txt).map (fun l => (patchLine D l).1) ∧
      (∀ l ∈ splitlines txt, scopeLine l = false → (patchLine D l).1 = l) ∧
      ((∀ l ∈ splitlines txt, scopeLine l = false) → (patch_dates txt D).1 = txt) := by
  refine ⟨?_, ?_, ?_⟩
  · by_cases hflag : endsWithLF txt = true
    · exact patch_split_flag_true hD hflag
    · rw [Bool.not_eq_true] at hflag
      have hO : (patch_dates txt D).1 =
          joinLines ((splitlines txt).map fun l => (patchLine D l).1) := by
        rw [patch_fst, hflag]
        simp
      by_cases htxt : txt = []
      · subst htxt
        rfl
      · have hlastP := patched_last_ne_empty hD ho htxt hflag
        rw [hO, split_join (patched_lines_lineFree hD txt), if_neg hlastP]
  · intro l _ hns
    rw [patchLine_nonscope hns]
  · intro hall
    have hmap : (splitlines txt).map (fun l => (patchLine D l).1) = splitlines txt := by
      conv_rhs => rw [← List.map_id (splitlines txt)]
      exact List.map_congr_left fun l hl => by rw [patchLine_nonscope (hall l hl)]; rfl
    rw [patch_fst, hmap]
    exact rejoin ho

/-- Claim C1 (amended): for every valid 8-digit date and every document
holding at least one scoped line with a `.devYYYYMMDD` token, patching and
then detecting returns exactly the patched-in date. -/
theorem c1_round_trip (txt D : List Char) (hD : isDate8 D = true)
    (hw : ∃ l ∈ splitlines txt, scopeLine l = true ∧ searchDate l ≠ none) :
    detect_first_date (patch_dates txt D).1 = D := by
  show detectLines (splitlines (patch_dates txt D).1) = D
  by_cases hflag : endsWithLF txt = true
  · rw [patch_split_flag_true hD hflag]
    exact detectLines_map_patch hD _ hw
  · rw [Bool.not_eq_true] at hflag
    have hO : (patch_dates txt D).1 =
        joinLines ((splitlines txt).map fun l => (patchLine D l).1) := by
      rw [patch_fst, hflag]
      simp
    have hPfree := patched_lines_lineFree hD txt
    by_cases hP0 : ((splitlines txt).map fun l => (patchLine D l).1) = []
    · have hnil : splitlines txt = [] := by simpa using hP0
      rw [hnil] at hw
      obtain ⟨l, hl, -⟩ := hw
      cases hl
    · by_cases hlast :
          ((splitlines txt).map fun l => (patchLine D l).1).getLast? =
            some ([] : List Char)
      · have hsplit : splitlines (patch_dates txt D).1 =
            ((splitlines txt).map fun l => (patchLine D l).1).dropLast := by
          rw [hO, split_join hPfree, if_pos hlast]
        rw [hsplit, ← List.map_dropLast]
        apply detectLines_map_patch hD
        obtain ⟨l, hl, hsc, hsd⟩ := hw
        have hlastL : (splitlines txt).getLast? = some ([] : List Char) := by
          rw [List.getLast?_map] at hlast
          cases hx : (splitlines txt).getLast? with
          | none => rw [hx] at hlast; cases hlast
          | some x =>
            rw [hx] at hlast
            injection hlast with hlast
            have hlast2 : (patchLine D x).1 = [] := hlast
            have hx0 : x = [] := by
              have := patchLine_length hD x
              rw [hlast2] at this
              exact List.length_eq_zero.mp this.symm
            rw [hx0]
        have hLne : splitlines txt ≠ [] := List.ne_nil_of_mem hl
        have hdec := getLast_empty_decomp hLne hlastL
        rw [hdec] at hl
        rcases List.mem_append.mp hl with hin | hin
        · exact ⟨l, hin, hsc, hsd⟩
        · rw [List.mem_singleton] at hin
          subst hin
          rw [show scopeLine ([] : List Char) = false from by decide] at hsc
          exact absurd hsc (by simp)
      · have hsplit : splitlines (patch_dates txt D).1 =
            (splitlines txt).map fun l => (patchLine D l).1 := by
          rw [hO, split_join hPfree, if_neg hlast]
        rw [hsplit]
        exact detectLines_map_patch hD _ hw

/-- Claim C4 (amended): a line is scoped exactly when its whitespace-trimmed
content starts with `torchvision==`/`torch==` followed at once by a word
character, or with `torch_xla` followed by nothing or a non-word character. -/
theorem c4_scope_rule (l : List Char) : scopeLine l = scopeLineAmended l := by
  have aux_false : ∀ (t : List Char), boundAfter false t = headIsWord t := by
    intro t
    cases t <;> simp [boundAfter, headIsWord]
  have aux_true : ∀ (t : List Char), boundAfter true t = headAbsentOrNonWord t := by
    intro t
    cases t <;> simp [boundAfter, headAbsentOrNonWord]
  show (tokMatch torchvisionEqTok (l.dropWhile pySpace) ||
      tokMatch torchEqTok (l.dropWhile pySpace) ||
      tokMatch torchXlaTok (l.dropWhile pySpace)) =
    ((torchvisionEqTok.isPrefixOf (l.dropWhile pySpace) &&
        headIsWord ((l.dropWhile pySpace).drop 13)) ||
      (torchEqTok.isPrefixOf (l.dropWhile pySpace) &&
        headIsWord ((l.dropWhile pySpace).drop 7)) ||
      (torchXlaTok.isPrefixOf (l.dropWhile pySpace) &&
        headAbsentOrNonWord ((l.dropWhile pySpace).drop 9)))
  have e1 : tokMatch torchvisionEqTok (l.dropWhile pySpace) =
      (torchvisionEqTok.isPrefixOf (l.dropWhile pySpace) &&
        boundAfter false ((l.dropWhile pySpace).drop 13)) := rfl
  have e2 : tokMatch torchEqTok (l.dropWhile pySpace) =
      (torchEqTok.isPrefixOf (l.dropWhile pySpace) &&
        boundAfter false ((l.dropWhile pySpace).drop 7)) := rfl
  have e3 : tokMatch torchXlaTok (l.dropWhile pySpace) =
      (torchXlaTok.isPrefixOf (l.dropWhile pySpace) &&
        boundAfter true ((l.dropWhile pySpace).drop 9)) := rfl
  rw [e1, e2, e3, aux_false, aux_false, aux_true]

/-- Claim C3 (amended): a truthy but malformed `--set-date` makes the
process exit with code 1 and produce no output, provided the requirements
file exists (a missing file exits with code 2 first). -/
theorem c3_bad_date_validation (inp : MainInput) (txt : List Char)
    (hf : inp.fileContent = some txt) (ht : truthyStr inp.setDate = true)
    (hbad : isDate8 (inp.setDate.getD []) = false) :
    runMain inp = ⟨1, true, none, none, none⟩ := by
  simp [runMain, hf, ht, hbad]

/-- Claim C8: in detect mode, when no scoped line carries a date, the
process exits with code 1, prints an error, and emits nothing. -/
theorem c8_detect_failure (inp : MainInput) (txt : List Char)
    (hf : inp.fileContent = some txt) (ht : truthyStr inp.setDate = false)
    (hdet : detect_first_date txt = []) :
    runMain inp = ⟨1, true, none, none, none⟩ := by
  simp [runMain, hf, ht, hdet]

/-- Claim C9: an empty `--set-date` value is falsy in Python, so the run is
indistinguishable from one without `--set-date`. -/
theorem c9_empty_set_date (inp : MainInput) (h : inp.setDate = some []) :
    runMain inp = runMain {inp with setDate := none} := by
  simp [runMain, h, truthyStr]

/-- Claim C7: the requirements file is rewritten exactly when the run is in
patch mode (truthy, valid `--set-date`), `--no-write` is absent, and the
patched text differs from the original; and what is written is the patched
text. -/
theorem c7_write_policy (inp : MainInput) (txt : List Char)
    (hf : inp.fileContent = some txt) :
    ((runMain inp).fileWritten ≠ none ↔
      (truthyStr inp.setDate = true ∧ isDate8 (inp.setDate.getD []) = true ∧
        inp.noWrite = false ∧ (patch_dates txt (inp.setDate.getD [])).1 ≠ txt)) ∧
    (∀ w, (runMain inp).fileWritten = some w →
      w = (patch_dates txt (inp.setDate.getD [])).1) := by
  by_cases ht : truthyStr inp.setDate = true
  · by_cases hd : isDate8 (inp.setDate.getD []) = true
    · by_cases hnw : inp.noWrite = true
      · constructor
        · simp [runMain, hf, ht, hd, hnw]
        · intro w hw
          simp [runMain, hf, ht, hd, hnw] at hw
      · have hnw2 : inp.noWrite = false := by simpa using hnw
        by_cases heq : (patch_dates txt (inp.setDate.getD [])).1 = txt
        · constructor
          · simp [runMain, hf, ht, hd, hnw2, heq]
          · intro w hw
            simp [runMain, hf, ht, hd, hnw2, heq] at hw
        · constructor
          · simp [runMain, hf, ht, hd, hnw2, heq, bne_iff_ne]
          · intro w hw
            simp [runMain, hf, ht, hd, hnw2, bne_iff_ne, heq] at hw
            exact hw.symm
    · constructor
      · simp [runMain, hf, ht, hd]
      · intro w hw
        simp [runMain, hf, ht, hd] at hw
  · have ht2 : truthyStr inp.setDate = false := by simpa using ht
    by_cases hdet : (detect_first_date txt).isEmpty = true
    · constructor
      · simp [runMain, hf, ht2, hdet]
      · intro w hw
        simp [runMain, hf, ht2, hdet] at hw
    · constructor
      · simp [runMain, hf, ht2, hdet]
      · intro w hw
        simp [runMain, hf, ht2, hdet] at hw

/-- Claim C10: the emitted record's `patched` field is true exactly when
the run was in patch mode and at least one replacement was made, and it is
not affected by `--no-write`. -/
theorem c10_patched_field (inp : MainInput) (txt : List Char)
    (hf : inp.fileContent = some txt) :
    (∀ r, (runMain inp).jsonEmitted = some r →
      (r.patched = true ↔ (truthyStr inp.setDate = true ∧
        0 < (patch_dates txt (inp.setDate.getD [])).2))) ∧
    ((runMain {inp with noWrite := true}).jsonEmitted.map (fun r => r.patched) =
      (runMain {inp with noWrite := false}).jsonEmitted.map fun r => r.patched) := by
  constructor
  · intro r hr
    by_cases ht : truthyStr inp.setDate = true
    · by_cases hd : isDate8 (inp.setDate.getD []) = true
      · simp [runMain, hf, ht, hd] at hr
        rw [← hr]
        simp [ht]
      · simp [runMain, hf, ht, hd] at hr
    · have ht2 : truthyStr inp.setDate = false := by simpa using ht
      by_cases hdet : (detect_first_date txt).isEmpty = true
      · simp [runMain, hf, ht2, hdet] at hr
      · simp [runMain, hf, ht2, hdet] at hr
        rw [← hr]
        simp [ht2]
  · by_cases ht : truthyStr inp.setDate = true
    · by_cases hd : isDate8 (inp.setDate.getD []) = true
      · simp [runMain, hf, ht, hd]
      · simp [runMain, hf, ht, hd]
    · have ht2 : truthyStr inp.setDate = false := by simpa using ht
      by_cases hdet : (detect_first_date txt).isEmpty = true
      · simp [runMain, hf, ht2, hdet]
      · simp [runMain, hf, ht2, hdet]

/-! ### Counterexamples -/

/-- Claim C1, as stated, is false: on a document with no scoped line the
patcher changes nothing and the detector returns the empty string, not the
patched-in date. -/
theorem c1_counterexample :
    detect_first_date
        (patch_dates ("numpy==1.0\n".toList) ("20240315".toList)).1 ≠
      "20240315".toList := by decide

/-- Claim C3, as stated, is false: with a malformed `--set-date` and a
missing requirements file the process exits with the file-not-found code 2,
not the validation code 1, because the file is read before validation. -/
theorem c3_counterexample :
    isDate8 ("2024031".toList) = false ∧
    (runMain
        ⟨"requirements/tpu.txt".toList, none, some ("2024031".toList),
          false, false, false⟩).exitCode = 2 := by decide

/-- Claim C4, as stated, is false: `torch== 1.0` begins with the prefix
`torch==` after trimming, yet `SCOPE_LINE` rejects it (the `\b` after `==`
demands a word character immediately after the operator). -/
theorem c4_counterexample :
    scopeLineClaim ("torch== 1.0".toList) = true ∧
    scopeLine ("torch== 1.0".toList) = false := by decide

/-- Claim C5, as stated, is false: `a\rb` consists solely of non-scoped
content, yet patching rewrites its `\r` boundary to `\n`. -/
theorem c5_counterexample :
    ((splitlines ("a\rb".toList)).all fun l => !scopeLine l) = true ∧
    (patch_dates ("a\rb".toList) ("20240315".toList)).1 ≠ "a\rb".toList := by
  decide

/-- Claim C6, as stated, is false: `a\r\r` does not end with `'\n'`, but its
patch output `a\n` does. -/
theorem c6_counterexample :
    endsWithLF ("a\r\r".toList) = false ∧
    endsWithLF (patch_dates ("a\r\r".toList) ("20240315".toList)).1 = true := by
  decide

/-! ### Witnesses -/

theorem c1_round_trip_witness :
    isDate8 ("20240315".toList) = true ∧
    detect_first_date
        (patch_dates ("torch==2.5.0.dev11111111\n".toList) ("20240315".toList)).1 =
      "20240315".toList :=
  ⟨by decide,
    c1_round_trip _ _ (by decide)
      ⟨"torch==2.5.0.dev11111111".toList, by decide, by decide, by decide⟩⟩

theorem c2_patch_idempotent_witness :
    isDate8 ("20240315".toList) = true ∧
    (patch_dates
          (patch_dates ("torch==1.0.dev20240101\n".toList) ("20240315".toList)).1
          ("20240315".toList)).1 =
      (patch_dates ("torch==1.0.dev20240101\n".toList) ("20240315".toList)).1 :=
  ⟨by decide, c2_patch_idempotent _ _ (by decide)⟩

theorem c3_bad_date_validation_witness :
    truthyStr (some ("2024031".toList)) = true ∧
    isDate8 ("2024031".toList) = false ∧
    runMain ⟨"f".toList, some ("x\n".toList), some ("2024031".toList),
        false, false, false⟩ =
      ⟨1, true, none, none, none⟩ :=
  ⟨by decide, by decide, c3_bad_date_validation _ ("x\n".toList) rfl (by decide) (by decide)⟩

theorem c5_frame_witness :
    onlyLF ("torch==1.0.dev20240101\nnumpy\n".toList) = true ∧
    splitlines
        (patch_dates ("torch==1.0.dev20240101\nnumpy\n".toList)
            ("20240315".toList)).1 =
      ["torch==1.0.dev20240315".toList, "numpy".toList] :=
  ⟨by decide,
    ((c5_frame ("torch==1.0.dev20240101\nnumpy\n".toList) ("20240315".toList)
          (by decide) (by decide)).1).trans (by decide)⟩

theorem c6_trailing_newline_witness :
    onlyLF ("torch==1.0.dev20240101".toList) = true ∧
    endsWithLF
        (patch_dates ("torch==1.0.dev20240101".toList) ("20240315".toList)).1 =
      endsWithLF ("torch==1.0.dev20240101".toList) :=
  ⟨by decide,
    c6_trailing_newline ("torch==1.0.dev20240101".toList) ("20240315".toList)
      (by decide) (by decide)⟩

theorem c7_write_policy_witness :
    (⟨"f".toList, some ("torch==1.0.dev20240101\n".toList),
        some ("20240315".toList), false, false, false⟩ : MainInput).fileContent =
      some ("torch==1.0.dev20240101\n".toList) ∧
    ((runMain ⟨"f".toList, some ("torch==1.0.dev20240101\n".toList),
          some ("20240315".toList), false, false, false⟩).fileWritten ≠ none ↔
      (truthyStr (some ("20240315".toList)) = true ∧
        isDate8 ((some ("20240315".toList)).getD []) = true ∧
        (false : Bool) = false ∧
        (patch_dates ("torch==1.0.dev20240101\n".toList)
            ((some ("20240315".toList)).getD [])).1 ≠
          "torch==1.0.dev20240101\n".toList)) :=
  ⟨rfl, (c7_write_policy _ ("torch==1.0.dev20240101\n".toList) rfl).1⟩

theorem c8_detect_failure_witness :
    truthyStr none = false ∧
    detect_first_date ("numpy==1.0\n".toList) = [] ∧
    runMain ⟨"f".toList, some ("numpy==1.0\n".toList), none,
        false, false, false⟩ =
      ⟨1, true, none, none, none⟩ :=
  ⟨by decide, by decide,
    c8_detect_failure _ ("numpy==1.0\n".toList) rfl (by decide) (by decide)⟩

theorem c9_empty_set_date_witness :
    (⟨"f".toList, some ("numpy\n".toList), some [], false, false, false⟩ :
        MainInput).setDate = some [] ∧
    runMain ⟨"f".toList, some ("numpy\n".toList), some [], false, false, false⟩ =
      runMain {(⟨"f".toList, some ("numpy\n".toList), some [], false, false,
          false⟩ : MainInput) with setDate := none} :=
  ⟨rfl, c9_empty_set_date _ rfl⟩

theorem c10_patched_field_witness :
    (runMain ⟨"f".toList, some ("torch==1.0.dev20240101\n".toList),
          some ("20240315".toList), false, false, true⟩).jsonEmitted =
      some ⟨"dev20240315".toList, true, "f".toList⟩ ∧
    ((⟨"dev20240315".toList, true, "f".toList⟩ : ResultRecord).patched = true ↔
      (truthyStr (some ("20240315".toList)) = true ∧
        0 < (patch_dates ("torch==1.0.dev20240101\n".toList)
            ((some ("20240315".toList)).getD [])).2)) :=
  ⟨by decide,
    (c10_patched_field
        ⟨"f".toList, some ("torch==1.0.dev20240101\n".toList),
          some ("20240315".toList), false, false, true⟩
        ("torch==1.0.dev20240101\n".toList) rfl).1
      ⟨"dev20240315".toList, true, "f".toList⟩ (by decide)⟩
